import Mathlib

/-!
Verification of the tuppu-agentti retrieval-and-generation pipeline.

Shallow embedding of the TypeScript sources:
  * `src/utils.ts`     — `chunk`, `cosSim` and string helpers;
  * `src/indexer.ts`   — `indexAll` (chunk-level indexing with
    `INSERT OR IGNORE` and an existence pre-check);
  * `src/retrieval.ts` — `searchVectors` and `answer`;
  * `src/models.ts`    — `generateWithLocalLLM`, `getEmbedder`, `summarize`;
  * `src/database.ts`  — `initDatabase` schema migration.

Strings are modelled as `List Char` (JavaScript strings are indexed
sequences of UTF-16 code units; all operations used by the code —
`slice`, `toLowerCase`, `includes`, splitting on non-word characters —
act unit-wise, which `List Char` captures).  Floating-point numbers are
modelled exactly: scores, boosts and thresholds as `ℚ`; the cosine
similarity itself (which takes a square root) over `ℝ`.  The similarity
function is a parameter `sim` of the retrieval pipeline so that the
pipeline's structural properties are established for every similarity
function, in particular for the one the code uses.
-/

namespace Tuppu

/-- JavaScript string: a list of UTF-16 code units, modelled as chars. -/
abbrev Str := List Char

/-- Coerce a Lean string literal to the model type. -/
def str (s : String) : Str := s.data

/-- `\w` of the JavaScript regex engine: `[A-Za-z0-9_]`. -/
def isWordChar (c : Char) : Bool := c.isAlphanum || c = '_'

/-- Whitespace as used by `trim` / `\s` (the ASCII cases that occur). -/
def isWs (c : Char) : Bool := c = ' ' || c = '\t' || c = '\n' || c = '\r'

/-- `String.prototype.toLowerCase` (ASCII case mapping). -/
def lower (s : Str) : Str := s.map Char.toLower

/-- `String.prototype.trim`: drop leading and trailing whitespace. -/
def trimChars (s : Str) : Str :=
  ((s.dropWhile isWs).reverse.dropWhile isWs).reverse

/-- `hay.includes(needle)`: `needle` occurs contiguously inside `hay`. -/
def includes (hay needle : Str) : Bool :=
  (List.range (hay.length + 1)).any (fun i => needle.isPrefixOf (hay.drop i))

/-!
## Text Chunker — `chunk` from `src/utils.ts`

```ts
export function chunk(text: string, size = 900, overlap = 180): string[] {
  if (!text) return [];
  const out: string[] = [];
  let i = 0;
  while (i < text.length) {
    out.push(text.slice(i, i + size));
    i += Math.max(1, size - overlap);
  }
  return out;
}
```

The `if (!text) return []` guard (empty string is falsy) coincides with
the loop producing nothing when `text.length = 0`, so the loop alone is
a faithful model.  `text.slice(i, i + size)` is `(drop i).take size`.
-/

/-- The loop of `chunk`, from position `i`.  The step is
`Math.max(1, size - overlap)`, guaranteeing forward progress.  The
`fuel` argument only makes the loop structurally recursive: since the
step is at least 1, any `fuel ≥ text.length - i` is enough to reach
the loop's own exit condition, so the fuel never cuts the loop short
(see `chunkFrom_fuel_congr`). -/
def chunkFrom (text : Str) (size overlap : Nat) : Nat → Nat → List Str
  | 0, _ => []
  | fuel + 1, i =>
    if i < text.length then
      ((text.drop i).take size) :: chunkFrom text size overlap fuel (i + max 1 (size - overlap))
    else []

/-- `chunk(text, size, overlap)`. -/
def chunk (text : Str) (size : Nat := 900) (overlap : Nat := 180) : List Str :=
  chunkFrom text size overlap text.length 0

/-- The start offsets the loop of `chunk` visits, from position `i`,
with the same fuel convention as `chunkFrom`. -/
def chunkStartsFrom (len size overlap : Nat) : Nat → Nat → List Nat
  | 0, _ => []
  | fuel + 1, i =>
    if i < len then
      i :: chunkStartsFrom len size overlap fuel (i + max 1 (size - overlap))
    else []

/-- All start offsets of `chunk`. -/
def chunkStarts (len size overlap : Nat) : List Nat :=
  chunkStartsFrom len size overlap len 0

/-- The chunk count claimed by the specification (§8, first bullet):
`ceil(max(1, L - O) / (S - O))`, with Nat ceiling division. -/
def specChunkCount (L S O : Nat) : Nat :=
  (max 1 (L - O) + (S - O) - 1) / (S - O)

/-- The chunk count the code actually produces when `O < S`:
`ceil(L / (S - O))`. -/
def codeChunkCount (L S O : Nat) : Nat :=
  (L + (S - O) - 1) / (S - O)

/-- The fuel never cuts the loop short: any two sufficient fuels give
the same chunk list. -/
theorem chunkFrom_fuel_congr (text : Str) (s o : Nat) :
    ∀ f₁ f₂ i, text.length - i ≤ f₁ → text.length - i ≤ f₂ →
      chunkFrom text s o f₁ i = chunkFrom text s o f₂ i := by
  intro f₁
  induction f₁ with
  | zero =>
    intro f₂ i h1 _
    have hni : ¬ i < text.length := by omega
    cases f₂ with
    | zero => rfl
    | succ f₂ => simp [chunkFrom, hni]
  | succ f₁ ih =>
    intro f₂ i h1 h2
    cases f₂ with
    | zero =>
      have hni : ¬ i < text.length := by omega
      simp [chunkFrom, hni]
    | succ f₂ =>
      by_cases hi : i < text.length
      · have hst : 1 ≤ max 1 (s - o) := Nat.le_max_left _ _
        simp only [chunkFrom, if_pos hi]
        rw [ih f₂ (i + max 1 (s - o)) (by omega) (by omega)]
      · simp [chunkFrom, hi]

theorem chunkFrom_eq_map (text : Str) (s o : Nat) :
    ∀ fuel i, chunkFrom text s o fuel i
      = (chunkStartsFrom text.length s o fuel i).map (fun j => (text.drop j).take s) := by
  intro fuel
  induction fuel with
  | zero => intro i; rfl
  | succ fuel ih =>
    intro i
    by_cases hi : i < text.length
    · simp only [chunkFrom, chunkStartsFrom, if_pos hi, List.map_cons]
      rw [ih]
    · simp [chunkFrom, chunkStartsFrom, hi]

theorem chunkStartsFrom_length (len s o : Nat) :
    ∀ fuel i, len - i ≤ fuel →
      (chunkStartsFrom len s o fuel i).length
        = (len - i + max 1 (s - o) - 1) / max 1 (s - o) := by
  set step := max 1 (s - o) with hstep
  have hpos : 0 < step := Nat.lt_of_lt_of_le Nat.zero_lt_one (Nat.le_max_left _ _)
  intro fuel
  induction fuel with
  | zero =>
    intro i h
    have hz : len - i = 0 := by omega
    simp only [chunkStartsFrom, List.length_nil, hz, Nat.zero_add]
    exact (Nat.div_eq_of_lt (by omega)).symm
  | succ fuel ih =>
    intro i h
    by_cases hi : i < len
    · simp only [chunkStartsFrom, if_pos hi, List.length_cons]
      have hst : 1 ≤ step := Nat.le_max_left _ _
      rw [ih (i + step) (by omega)]
      set a := len - i with ha
      have ha1 : 1 ≤ a := by omega
      have hsub : len - (i + step) = a - step := by omega
      rw [hsub]
      by_cases hcase : a ≤ step
      · have h2 : a - step = 0 := by omega
        rw [h2]
        have l : (step - 1) / step = 0 := Nat.div_eq_of_lt (by omega)
        rw [Nat.zero_add, l]
        have : (a + step - 1) / step = 1 := by
          apply Nat.div_eq_of_lt_le
          · omega
          · omega
        omega
      · have e1 : (a - step + step - 1) / step = (a - 1 - step) / step + 1 := by
          have h2 : a - step + step - 1 = (a - 1 - step) + step := by omega
          rw [h2, Nat.add_div_right _ hpos]
        have e2 : (a + step - 1) / step = (a - 1 - step) / step + 2 := by
          have h3 : a + step - 1 = (a - 1 - step) + step + step := by omega
          rw [h3, Nat.add_div_right _ hpos, Nat.add_div_right _ hpos]
        omega
    · have hz : len - i = 0 := by omega
      simp only [chunkStartsFrom, if_neg hi, List.length_nil, hz, Nat.zero_add]
      exact (Nat.div_eq_of_lt (by omega)).symm

theorem chunkStartsFrom_le (len s o : Nat) :
    ∀ fuel i j, j ∈ chunkStartsFrom len s o fuel i → i ≤ j := by
  intro fuel
  induction fuel with
  | zero => intro i j hj; simp [chunkStartsFrom] at hj
  | succ fuel ih =>
    intro i j hj
    by_cases hi : i < len
    · simp only [chunkStartsFrom, if_pos hi, List.mem_cons] at hj
      have hst : 1 ≤ max 1 (s - o) := Nat.le_max_left _ _
      rcases hj with rfl | hj
      · exact le_rfl
      · have := ih (i + max 1 (s - o)) j hj
        omega
    · simp [chunkStartsFrom, hi] at hj

/-- The start offsets visited by the chunk loop are strictly increasing. -/
theorem chunkStartsFrom_pairwise (len s o : Nat) :
    ∀ fuel i, (chunkStartsFrom len s o fuel i).Pairwise (· < ·) := by
  intro fuel
  induction fuel with
  | zero => intro i; simp [chunkStartsFrom]
  | succ fuel ih =>
    intro i
    by_cases hi : i < len
    · have hst : 1 ≤ max 1 (s - o) := Nat.le_max_left _ _
      simp only [chunkStartsFrom, if_pos hi]
      refine List.Pairwise.cons ?_ (ih (i + max 1 (s - o)))
      intro j hj
      have := chunkStartsFrom_le len s o fuel (i + max 1 (s - o)) j hj
      omega
    · simp [chunkStartsFrom, hi]

/-- Every produced chunk has length at most `size`. -/
theorem chunk_length_le (text : Str) (s o : Nat) :
    ∀ c ∈ chunk text s o, c.length ≤ s := by
  intro c hc
  rw [chunk, chunkFrom_eq_map] at hc
  rcases List.mem_map.mp hc with ⟨j, _, rfl⟩
  exact List.length_take_le s (text.drop j)

/-- Claim C2, counterexample.  The claimed chunk count
`ceil(max(1, L - O) / (S - O))` is wrong: for the two-character text
`"ab"` with `S = 2`, `O = 1` the code produces 2 chunks (`"ab"`, `"b"`)
while the formula gives 1.  The parenthetical "adjusted for the final
partial chunk" cannot repair it either: for `"abcd"` with `S = 3`,
`O = 1` the final chunk `"cd"` is partial, yet the unadjusted formula
already matches the code's 2 chunks, so adding 1 for a partial final
chunk would overcount there. -/
theorem C2_counterexample :
    (chunk (str "ab") 2 1).length = 2 ∧ specChunkCount (str "ab").length 2 1 = 1
    ∧ (chunk (str "ab") 2 1).length ≠ specChunkCount (str "ab").length 2 1
    ∧ (chunk (str "abcd") 3 1).length = 2
    ∧ specChunkCount (str "abcd").length 3 1 = 2
    ∧ (chunk (str "abcd") 3 1).getLast? = some (str "cd") := by
  refine ⟨rfl, rfl, by decide, rfl, rfl, rfl⟩

/-- Claim C2, amended: for every text of length `L > 0` and parameters
`S`, `O` with `O < S`, `chunk` produces exactly `ceil(L / (S - O))`
chunks (not `ceil(max(1, L - O) / (S - O))`); the chunks are the
windows of width `S` at the loop's start offsets, which are strictly
increasing; and every produced chunk has length at most `S`. -/
theorem C2_chunk_shape (text : Str) (S O : Nat) (hO : O < S) (hL : 0 < text.length) :
    (chunk text S O).length = codeChunkCount text.length S O
    ∧ (chunkStarts text.length S O).Pairwise (· < ·)
    ∧ chunk text S O
        = (chunkStarts text.length S O).map (fun j => (text.drop j).take S)
    ∧ ∀ c ∈ chunk text S O, c.length ≤ S := by
  have hstep : max 1 (S - O) = S - O := by omega
  refine ⟨?_, ?_, ?_, chunk_length_le text S O⟩
  · rw [chunk, chunkFrom_eq_map, List.length_map,
      chunkStartsFrom_length text.length S O text.length 0 (by omega)]
    rw [codeChunkCount, hstep, Nat.sub_zero]
  · exact chunkStartsFrom_pairwise text.length S O text.length 0
  · rw [chunk, chunkFrom_eq_map]; rfl

/-- Witness for `C2_chunk_shape` at `"abcde"`, `S = 3`, `O = 1`. -/
theorem C2_chunk_shape_witness :
    (1 < 3 ∧ 0 < (str "abcde").length)
    ∧ ((chunk (str "abcde") 3 1).length = codeChunkCount (str "abcde").length 3 1
        ∧ (chunkStarts (str "abcde").length 3 1).Pairwise (· < ·)
        ∧ chunk (str "abcde") 3 1
            = (chunkStarts (str "abcde").length 3 1).map
                (fun j => ((str "abcde").drop j).take 3)
        ∧ ∀ c ∈ chunk (str "abcde") 3 1, c.length ≤ 3) :=
  ⟨⟨by decide, by decide⟩, C2_chunk_shape (str "abcde") 3 1 (by decide) (by decide)⟩

/-!
## Cosine similarity — `cosSim` from `src/utils.ts`

```ts
export function cosSim(a, b): number {
  const n = Math.min(a.length, b.length);
  if (n === 0) return 0;
  let dot = 0, na = 0, nb = 0;
  for (let i = 0; i < n; i++) {
    const ai = a[i] ?? 0;
    const bi = b[i] ?? 0;
    dot += ai * bi; na += ai * ai; nb += bi * bi;
  }
  const denom = Math.sqrt(na) * Math.sqrt(nb);
  return denom ? dot / denom : 0;
}
```

IEEE doubles are modelled by exact reals; `denom ? _ : 0` tests
falsiness, i.e. `denom = 0` in the real model.  Indexing stays below
`n ≤ length`, so `a[i] ?? 0` never takes the `?? 0` default; `getD`
reflects that. -/

/-- `dot` accumulated over the common prefix (via `zip`, which
truncates to the shorter list). -/
def sumProd (a b : List ℝ) : ℝ := ((a.zip b).map fun p => p.1 * p.2).sum

/-- A sum of squares (`na` / `nb` accumulators). -/
def sumSq (a : List ℝ) : ℝ := (a.map fun x => x * x).sum

noncomputable def cosSim (a b : List ℝ) : ℝ :=
  let n := min a.length b.length
  if n = 0 then 0
  else
    let dot := sumProd (a.take n) (b.take n)
    let na := sumSq (a.take n)
    let nb := sumSq (b.take n)
    let denom := Real.sqrt na * Real.sqrt nb
    if denom = 0 then 0 else dot / denom

/-- Claim C10: `cosSim` is a total function into ℝ; it depends only on
the first `min (|a|, |b|)` components of its arguments; it returns `0`
when either vector is empty; and whenever the product of the two prefix
norms is zero it returns `0` rather than dividing, so the division is
only ever taken with a nonzero denominator — in particular for vectors
of unequal dimension or zero magnitude. -/
theorem C10_cosSim_total (a b : List ℝ) :
    cosSim [] b = 0
    ∧ cosSim a [] = 0
    ∧ cosSim a b
        = cosSim (a.take (min a.length b.length)) (b.take (min a.length b.length))
    ∧ (Real.sqrt (sumSq (a.take (min a.length b.length)))
        * Real.sqrt (sumSq (b.take (min a.length b.length))) = 0 →
        cosSim a b = 0) := by
  refine ⟨by simp [cosSim], by simp [cosSim], ?_, ?_⟩
  · by_cases hn : min a.length b.length = 0
    · simp [cosSim, hn]
    · have hla : min a.length b.length ≤ a.length := Nat.min_le_left _ _
      have hlb : min a.length b.length ≤ b.length := Nat.min_le_right _ _
      simp only [cosSim, List.length_take, List.take_take,
        Nat.min_eq_left hla, Nat.min_eq_left hlb, min_self]
  · intro h
    by_cases hn : min a.length b.length = 0
    · simp [cosSim, hn]
    · simp only [cosSim, if_neg hn]
      rw [if_pos h]

/-- Witness for `C10_cosSim_total` at `a = [0]`, `b = [1]`: the prefix
norm product is `√0 · √1 = 0` and `cosSim [0] [1] = 0`. -/
theorem C10_cosSim_total_witness :
    (Real.sqrt (sumSq ((([0] : List ℝ)).take (min ([0] : List ℝ).length ([1] : List ℝ).length)))
      * Real.sqrt (sumSq (([1] : List ℝ).take (min ([0] : List ℝ).length ([1] : List ℝ).length))) = 0)
    ∧ cosSim ([0] : List ℝ) ([1] : List ℝ) = 0 := by
  have h : Real.sqrt (sumSq ((([0] : List ℝ)).take (min ([0] : List ℝ).length ([1] : List ℝ).length)))
      * Real.sqrt (sumSq (([1] : List ℝ).take (min ([0] : List ℝ).length ([1] : List ℝ).length))) = 0 := by
    simp [sumSq]
  exact ⟨h, ((C10_cosSim_total [0] [1]).2.2.2) h⟩

/-!
## Data model — the `docs` table (`src/database.ts`)

One row per (document, chunk): `url`, `title`, `chunk_index`, `content`
and a vector blob.  The Float32 encoding round-trip
(`arrToBuf` / `bufToArr`) is modelled as the identity, so a stored
vector is just the component list; components are modelled as ℚ (the
retrieval pipeline only ever combines similarity values by addition
and comparison, which ℚ captures exactly, and the similarity function
itself is kept as a parameter `sim` below). -/

structure Row where
  url : Str
  title : Str
  chunk_index : Nat
  content : Str
  vector : List ℚ
deriving DecidableEq

/-- `{ ...r, score: s }` — the scored row of `searchVectors`. -/
structure Scored where
  row : Row
  score : ℚ
deriving DecidableEq

/-- The similarity oracle: stands for `cosSim(queryVec, bufToArr(r.vector))`.
The pipeline's properties below are proved for every `sim`, hence in
particular for the cosine similarity the code uses. -/
abbrev Sim := List ℚ → List ℚ → ℚ

/-!
## Keyword derivation (`src/retrieval.ts`)

```ts
const lowerQ = question.toLowerCase();
const keywords = Array.from(new Set(lowerQ.split(/\W+/).filter((x) => x.length >= 4)));
```

`split(/\W+/)` cuts the string at maximal runs of non-word characters;
splitting at every non-word character instead only inserts extra empty
tokens, which the `length >= 4` filter removes, so the two agree after
the filter.  `new Set` deduplicates keeping first occurrences. -/

/-- Split into word-character runs; `acc` is the current run, reversed. -/
def tokensAux : List Char → List Char → List Str
  | [], acc => [acc.reverse]
  | c :: cs, acc =>
    if isWordChar c then tokensAux cs (c :: acc)
    else acc.reverse :: tokensAux cs []

def tokens (s : Str) : List Str := tokensAux s []

/-- First-occurrence deduplication (`Array.from(new Set(...))`). -/
def dedupFirstAux (seen : List Str) : List Str → List Str
  | [] => []
  | x :: xs =>
    if x ∈ seen then dedupFirstAux seen xs
    else x :: dedupFirstAux (x :: seen) xs

def dedupFirst (l : List Str) : List Str := dedupFirstAux [] l

/-- The keyword set of a question: lower-case, split on non-word
boundaries, keep tokens of length ≥ 4, deduplicate. -/
def keywordsOf (q : Str) : List Str :=
  dedupFirst ((tokens (lower q)).filter (fun t => 4 ≤ t.length))

/-!
## Hybrid scoring — `searchVectors` from `src/retrieval.ts`

```ts
const scored = rows.map((r) => {
  const v = bufToArr(r.vector as Buffer);
  let s = cosSim(queryVec, v);
  const title = (r.title ?? '').toLowerCase();
  const body = (r.content ?? '').toLowerCase();
  if (keywords.some((kw) => title.includes(kw))) s += 0.06;
  if (keywords.some((kw) => body.includes(kw))) s += 0.03;
  return { ...r, score: s };
});
scored.sort((a, b) => b.score - a.score);
return scored.filter((x) => x.score >= 0.28).slice(0, k);
```

`Array.prototype.sort` with comparator `b.score - a.score` is a stable
descending sort; it is modelled by a stable insertion sort with the
same comparison.  `title` is never SQL-NULL in rows the indexer writes,
so `r.title ?? ''` is `r.title`. -/

def scoreOf (sim : Sim) (queryVec : List ℚ) (keywords : List Str) (r : Row) : ℚ :=
  let s := sim queryVec r.vector
  let s := if keywords.any (fun kw => includes (lower r.title) kw) then s + 0.06 else s
  if keywords.any (fun kw => includes (lower r.content) kw) then s + 0.03 else s

/-- Insert into a descending-sorted list, before any equal score
(stability: the element being inserted is the earlier one). -/
def insertDesc (x : Scored) : List Scored → List Scored
  | [] => [x]
  | y :: ys => if x.score < y.score then y :: insertDesc x ys else x :: y :: ys

/-- Stable descending sort by score. -/
def sortDesc : List Scored → List Scored
  | [] => []
  | y :: ys => insertDesc y (sortDesc ys)

def searchVectors (sim : Sim) (queryVec : List ℚ) (question : Str)
    (k : Nat) (db : List Row) : List Scored :=
  let keywords := keywordsOf question
  let scored := db.map (fun r => ⟨r, scoreOf sim queryVec keywords r⟩)
  let sorted := sortDesc scored
  (sorted.filter (fun x => (0.28 : ℚ) ≤ x.score)).take k

/-!
## Answer synthesis — `answer` from `src/retrieval.ts`

The LLM call and the summarizer are external effects; they enter as
oracles: `llm system user` is the outcome of
`generateWithLocalLLM(system, user, ...)` (`Except` = promise
rejection), and `summModel` is the summarization model, of which
`summarize` keeps the 3000-character truncation performed in
`src/models.ts`.  The question embedding `embed(question)` enters as
the `queryVec` argument. -/

def notFoundMsg : Str := str "No answer found in Tuppu.fi content.\n\nSources:\n(none)"

def systemPrompt : Str := str
  "You are the Tuppu.fi Agent. Answer in clear, concise English using ONLY the provided context.\nIf the answer cannot be found in the context, reply exactly: \"Not found on Tuppu.fi.\" and include a Sources section. Always include a \"Sources:\" list of the referenced pages."

def userPrompt (question context : Str) : Str :=
  str "Question: " ++ question
    ++ str "\n\nContext (only use this information):\n" ++ context
    ++ str "\n\nWrite a 3–6 sentence answer. If the sources do not cover the topic, state it directly."

/-- `hay.indexOf(needle)` as an option (`none` = `-1`). -/
def indexOfSub (hay needle : Str) : Option Nat :=
  (List.range (hay.length + 1)).find? (fun i => needle.isPrefixOf (hay.drop i))

/-- `s.replace(/\s+/g, ' ')`: collapse whitespace runs to one space.
`prev` records whether the previous character was whitespace. -/
def collapseWsAux : Bool → List Char → List Char
  | _, [] => []
  | prev, c :: cs =>
    if isWs c then
      if prev then collapseWsAux true cs else ' ' :: collapseWsAux true cs
    else c :: collapseWsAux false cs

def collapseWs (s : Str) : Str := collapseWsAux false s

/-- One context block: keyword window (220 before, 400 after the first
keyword hit; first 400 characters when no keyword position is found),
whitespace-collapsed, labelled with citation index, title and key. -/
def contextBlock (must : List Str) (i : Nat) (h : Scored) : Str :=
  let m := must.find? (fun w => includes (lower h.row.content) w)
  let idx : Option Nat := match m with
    | some w => indexOfSub (lower h.row.content) w
    | none => none
  let start := match idx with
    | some j => j - 220
    | none => 0
  let stop := min h.row.content.length (match idx with
    | some j => j + 400
    | none => 400)
  let excerpt := trimChars (collapseWs ((h.row.content.drop start).take (stop - start)))
  str "[" ++ (Nat.repr (i + 1)).data ++ str "] " ++ h.row.title
    ++ str "\n" ++ h.row.url ++ str "\n---\n" ++ excerpt

def contextOf (must : List Str) (top : List Scored) : Str :=
  List.intercalate (str "\n\n")
    ((List.range top.length).zip top |>.map (fun p => contextBlock must p.1 p.2))

/-- The fallback input: concatenated evidence texts (600-char caps). -/
def mergedOf (top : List Scored) : Str :=
  List.intercalate (str "\n\n")
    (top.map (fun h => str "**" ++ h.row.title ++ str "**\n"
      ++ h.row.content.take 600 ++ str "\n" ++ h.row.url))

/-- `summarize` from `src/models.ts`: the summarizer model applied to
the first 3000 characters. -/
def summarize (summModel : Str → Str) (text : Str) : Str :=
  summModel (text.take 3000)

/-- The deterministic "Sources" listing: one line per evidence item,
in evidence order. -/
def linksOf (top : List Scored) : Str :=
  List.intercalate (str "\n")
    (top.map (fun h => str "- " ++ h.row.title ++ str " — " ++ h.row.url))

/-- The second-tier filters of `answer`: confidence floor 0.35, then
the lexical gate (some keyword occurs verbatim in the chunk text). -/
def strictHitsOf (sim : Sim) (queryVec : List ℚ) (db : List Row) (question : Str) :
    List Scored :=
  let hits := searchVectors sim queryVec question 10 db
  let must := keywordsOf question
  let goodHits := hits.filter (fun h => (0.35 : ℚ) ≤ h.score)
  goodHits.filter (fun h => must.any (fun m => includes (lower h.row.content) m))

def answer (sim : Sim) (queryVec : List ℚ)
    (llm : Str → Str → Except Str Str) (summModel : Str → Str)
    (db : List Row) (question : Str) : Str :=
  let must := keywordsOf question
  let strictHits := strictHitsOf sim queryVec db question
  if strictHits.isEmpty then notFoundMsg
  else
    let top := strictHits.take 3
    let context := contextOf must top
    let text := match llm systemPrompt (userPrompt question context) with
      | .ok t => t
      | .error _ => summarize summModel (mergedOf top)
    text ++ str "\n\nSources:\n" ++ linksOf top

/-!
## Sorting lemmas
-/

/-- Descending-sortedness by score. -/
def SortedDesc (l : List Scored) : Prop :=
  l.Pairwise (fun u v => v.score ≤ u.score)

theorem insertDesc_perm (x : Scored) (l : List Scored) :
    List.Perm (insertDesc x l) (x :: l) := by
  induction l with
  | nil => exact List.Perm.refl _
  | cons y ys ih =>
    by_cases h : x.score < y.score
    · simp only [insertDesc, if_pos h]
      exact List.Perm.trans (ih.cons y) (List.Perm.swap _ _ _)
    · simp [insertDesc, if_neg h]

theorem sortDesc_perm (l : List Scored) : List.Perm (sortDesc l) l := by
  induction l with
  | nil => exact List.Perm.refl _
  | cons y ys ih =>
    exact List.Perm.trans (insertDesc_perm y (sortDesc ys)) (ih.cons y)

theorem insertDesc_sorted (x : Scored) (l : List Scored)
    (hl : SortedDesc l) : SortedDesc (insertDesc x l) := by
  induction l with
  | nil => simp [insertDesc, SortedDesc]
  | cons y ys ih =>
    rcases List.pairwise_cons.mp hl with ⟨hy, hys⟩
    by_cases h : x.score < y.score
    · simp only [insertDesc, if_pos h]
      refine List.pairwise_cons.mpr ⟨?_, ih hys⟩
      intro z hz
      have hz' := (insertDesc_perm x ys).mem_iff.mp hz
      rcases List.mem_cons.mp hz' with rfl | hz''
      · exact le_of_lt h
      · exact hy z hz''
    · simp only [insertDesc, if_neg h]
      refine List.pairwise_cons.mpr ⟨?_, hl⟩
      intro z hz
      rcases List.mem_cons.mp hz with rfl | hz'
      · exact le_of_not_lt h
      · exact le_trans (hy z hz') (le_of_not_lt h)

theorem sortDesc_sorted (l : List Scored) : SortedDesc (sortDesc l) := by
  induction l with
  | nil => simp [sortDesc, SortedDesc]
  | cons y ys ih => exact insertDesc_sorted y (sortDesc ys) ih

theorem insertDesc_eq_cons (x : Scored) (l : List Scored)
    (h : ∀ z ∈ l, z.score ≤ x.score) : insertDesc x l = x :: l := by
  cases l with
  | nil => rfl
  | cons y ys =>
    have : ¬ x.score < y.score := not_lt.mpr (h y (List.mem_cons_self y ys))
    simp [insertDesc, this]

/-- Filtering at a score threshold commutes with inserting into a
descending-sorted list. -/
theorem filter_insertDesc (c : ℚ) (x : Scored) (l : List Scored)
    (hl : SortedDesc l) :
    (insertDesc x l).filter (fun y => c ≤ y.score)
      = if c ≤ x.score then insertDesc x (l.filter (fun y => c ≤ y.score))
        else l.filter (fun y => c ≤ y.score) := by
  induction l with
  | nil =>
    by_cases hx : c ≤ x.score
    · simp [insertDesc, List.filter, hx]
    · simp [insertDesc, List.filter, hx]
  | cons y ys ih =>
    rcases List.pairwise_cons.mp hl with ⟨hy, hys⟩
    by_cases h : x.score < y.score
    · simp only [insertDesc, if_pos h]
      by_cases hpy : c ≤ y.score
      · rw [List.filter_cons_of_pos (by simpa using hpy), ih hys,
          List.filter_cons_of_pos (by simpa using hpy)]
        by_cases hpx : c ≤ x.score
        · rw [if_pos hpx, if_pos hpx]
          have : x.score < y.score := h
          simp [insertDesc, this]
        · rw [if_neg hpx, if_neg hpx]
      · have hally : ∀ z ∈ ys, ¬ (c ≤ z.score) := by
          intro z hz hcz
          exact hpy (le_trans hcz (hy z hz))
        have hfys : ys.filter (fun y => c ≤ y.score) = [] :=
          List.filter_eq_nil_iff.mpr (by intro z hz; simpa using hally z hz)
        have hpx : ¬ c ≤ x.score := fun hcx => hpy (le_trans hcx (le_of_lt h))
        rw [List.filter_cons_of_neg (by simpa using hpy), ih hys,
          List.filter_cons_of_neg (by simpa using hpy)]
    · simp only [insertDesc, if_neg h]
      by_cases hpx : c ≤ x.score
      · rw [List.filter_cons_of_pos (by simpa using hpx), if_pos hpx]
        refine Eq.symm (insertDesc_eq_cons x _ ?_)
        intro z hz
        have hz' := List.mem_of_mem_filter hz
        rcases List.mem_cons.mp hz' with rfl | hz''
        · exact le_of_not_lt h
        · exact le_trans (hy z hz'') (le_of_not_lt h)
      · rw [List.filter_cons_of_neg (by simpa using hpx), if_neg hpx]

/-- Filtering at a score threshold commutes with the descending sort
(the source filters after sorting; the specification describes
filtering before sorting — they agree). -/
theorem sortDesc_filter_comm (c : ℚ) (l : List Scored) :
    (sortDesc l).filter (fun y => c ≤ y.score)
      = sortDesc (l.filter (fun y => c ≤ y.score)) := by
  induction l with
  | nil => rfl
  | cons y ys ih =>
    show (insertDesc y (sortDesc ys)).filter _ = _
    rw [filter_insertDesc c y (sortDesc ys) (sortDesc_sorted ys)]
    by_cases hpy : c ≤ y.score
    · rw [if_pos hpy, ih, List.filter_cons_of_pos (by simpa using hpy)]
      rfl
    · rw [if_neg hpy, ih, List.filter_cons_of_neg (by simpa using hpy)]

/-- The score computed by `searchVectors`, written additively. -/
theorem scoreOf_eq (sim : Sim) (qv : List ℚ) (kws : List Str) (r : Row) :
    scoreOf sim qv kws r
      = sim qv r.vector
        + (if kws.any (fun kw => includes (lower r.title) kw) then (0.06 : ℚ) else 0)
        + (if kws.any (fun kw => includes (lower r.content) kw) then (0.03 : ℚ) else 0) := by
  unfold scoreOf
  by_cases h1 : kws.any (fun kw => includes (lower r.title) kw)
  <;> by_cases h2 : kws.any (fun kw => includes (lower r.content) kw)
  <;> simp [h1, h2]

/-- Claim C5: for every question and store, `searchVectors` scores each
chunk as the similarity of the query vector and the chunk vector, plus
0.06 if any keyword (deduplicated lower-cased question token of length
≥ 4, split on non-word boundaries) occurs in the lower-cased title,
plus 0.03 if any keyword occurs in the lower-cased text, additively;
and the candidate set is exactly the scored chunks with score ≥ 0.28,
sorted descending by score, truncated to the top 10. -/
theorem C5_searchVectors (sim : Sim) (queryVec : List ℚ) (q : Str) (db : List Row) :
    searchVectors sim queryVec q 10 db
      = (sortDesc ((db.map (fun r => ⟨r, scoreOf sim queryVec (keywordsOf q) r⟩)).filter
          (fun x => (0.28 : ℚ) ≤ x.score))).take 10
    ∧ (∀ x ∈ searchVectors sim queryVec q 10 db,
        (0.28 : ℚ) ≤ x.score
        ∧ x.score = sim queryVec x.row.vector
            + (if (keywordsOf q).any (fun kw => includes (lower x.row.title) kw)
                then (0.06 : ℚ) else 0)
            + (if (keywordsOf q).any (fun kw => includes (lower x.row.content) kw)
                then (0.03 : ℚ) else 0)
        ∧ x.row ∈ db)
    ∧ SortedDesc (searchVectors sim queryVec q 10 db)
    ∧ (searchVectors sim queryVec q 10 db).length ≤ 10 := by
  have hmem : ∀ x ∈ searchVectors sim queryVec q 10 db,
      (0.28 : ℚ) ≤ x.score
      ∧ x ∈ db.map (fun r => (⟨r, scoreOf sim queryVec (keywordsOf q) r⟩ : Scored)) := by
    intro x hx
    have h1 : x ∈ (sortDesc
        (db.map (fun r => ⟨r, scoreOf sim queryVec (keywordsOf q) r⟩))).filter
        (fun x => (0.28 : ℚ) ≤ x.score) := List.mem_of_mem_take hx
    rcases List.mem_filter.mp h1 with ⟨h2, h3⟩
    exact ⟨by simpa using h3, (sortDesc_perm _).mem_iff.mp h2⟩
  refine ⟨?_, ?_, ?_, ?_⟩
  · show ((sortDesc _).filter _).take 10 = _
    rw [sortDesc_filter_comm]
  · intro x hx
    rcases hmem x hx with ⟨hsc, hmap⟩
    rcases List.mem_map.mp hmap with ⟨r, hr, hx'⟩
    refine ⟨hsc, ?_, ?_⟩
    · rw [← hx', scoreOf_eq]
    · rw [← hx']; exact hr
  · have hs : SortedDesc ((sortDesc
        (db.map (fun r => ⟨r, scoreOf sim queryVec (keywordsOf q) r⟩))).filter
          (fun x => (0.28 : ℚ) ≤ x.score)) :=
      (sortDesc_sorted _).sublist (List.filter_sublist _)
    exact hs.sublist (List.take_sublist _ _)
  · exact List.length_take_le _ _

/-- Every candidate returned by `searchVectors` is a row of the store. -/
theorem mem_searchVectors_row (sim : Sim) (qv : List ℚ) (q : Str) (k : Nat)
    (db : List Row) : ∀ x ∈ searchVectors sim qv q k db, x.row ∈ db := by
  intro x hx
  have h1 := List.mem_of_mem_take hx
  rcases List.mem_filter.mp h1 with ⟨h2, _⟩
  have h3 := (sortDesc_perm _).mem_iff.mp h2
  rcases List.mem_map.mp h3 with ⟨r, hr, hx'⟩
  rw [← hx']
  exact hr

/-- Oracles used as concrete instances in witnesses. -/
def simConst (c : ℚ) : Sim := fun _ _ => c

def llmFail : Str → Str → Except Str Str := fun _ _ => .error (str "LLM HTTP 500: ")

def summConst : Str → Str := fun _ => str "Extractive summary."

/-- Claim C4: whenever the derived evidence set is empty — in
particular whenever no keyword of the question (length ≥ 4) occurs in
any stored chunk's text — `answer` returns the designated "not found"
response, whose sources list is `(none)`; it never builds an answer
from chunks that failed the evidence gate. -/
theorem C4_fail_closed (sim : Sim) (qv : List ℚ)
    (llm : Str → Str → Except Str Str) (summ : Str → Str)
    (db : List Row) (q : Str) :
    (strictHitsOf sim qv db q = [] → answer sim qv llm summ db q = notFoundMsg)
    ∧ ((∀ kw ∈ keywordsOf q, ∀ r ∈ db, includes (lower r.content) kw = false) →
        strictHitsOf sim qv db q = []
        ∧ answer sim qv llm summ db q = notFoundMsg) := by
  have hbase : strictHitsOf sim qv db q = [] → answer sim qv llm summ db q = notFoundMsg := by
    intro h
    rw [answer, h]
    rfl
  refine ⟨hbase, ?_⟩
  intro h
  have hnil : strictHitsOf sim qv db q = [] := by
    rw [strictHitsOf]
    apply List.filter_eq_nil_iff.mpr
    intro x hx
    have hxdb : x.row ∈ db := by
      have hx' := List.mem_of_mem_filter hx
      exact mem_searchVectors_row sim qv q 10 db x hx'
    simp only [List.any_eq_true, not_exists, not_and]
    intro kw hkw
    rw [h kw hkw x.row hxdb]
    simp
  exact ⟨hnil, hbase hnil⟩

/-- Witness for `C4_fail_closed`: an empty store and the question
`"what about wind"`. -/
theorem C4_fail_closed_witness :
    (∀ kw ∈ keywordsOf (str "what about wind"), ∀ r ∈ ([] : List Row),
      includes (lower r.content) kw = false)
    ∧ strictHitsOf (simConst 1) [] [] (str "what about wind") = []
    ∧ answer (simConst 1) [] llmFail summConst [] (str "what about wind") = notFoundMsg := by
  have h : ∀ kw ∈ keywordsOf (str "what about wind"), ∀ r ∈ ([] : List Row),
      includes (lower r.content) kw = false := by
    intro kw _ r hr
    exact absurd hr (List.not_mem_nil r)
  exact ⟨h, (C4_fail_closed (simConst 1) [] llmFail summConst [] (str "what about wind")).2 h⟩

/-- Claim C6: with a non-empty evidence set, the returned answer is the
generated prose when the Generation Provider succeeds, and the
Extractive Fallback's summary of the concatenated evidence texts when
it fails; on either path the result ends with the "Sources" listing of
every evidence item (title and document key) in evidence order, and in
particular the result is never empty when every generation call
fails. -/
theorem C6_fallback (sim : Sim) (qv : List ℚ)
    (llm : Str → Str → Except Str Str) (summ : Str → Str)
    (db : List Row) (q : Str)
    (h : strictHitsOf sim qv db q ≠ []) :
    (answer sim qv llm summ db q
      = (match llm systemPrompt
            (userPrompt q (contextOf (keywordsOf q) ((strictHitsOf sim qv db q).take 3))) with
          | .ok t => t
          | .error _ => summarize summ (mergedOf ((strictHitsOf sim qv db q).take 3)))
        ++ str "\n\nSources:\n" ++ linksOf ((strictHitsOf sim qv db q).take 3))
    ∧ ((∀ s u, ∃ e, llm s u = .error e) →
        answer sim qv llm summ db q
          = summarize summ (mergedOf ((strictHitsOf sim qv db q).take 3))
            ++ str "\n\nSources:\n" ++ linksOf ((strictHitsOf sim qv db q).take 3)
        ∧ answer sim qv llm summ db q ≠ []) := by
  have hne : (strictHitsOf sim qv db q).isEmpty = false := by
    cases hcase : strictHitsOf sim qv db q with
    | nil => exact absurd hcase h
    | cons a l => rfl
  have hmain : answer sim qv llm summ db q
      = (match llm systemPrompt
            (userPrompt q (contextOf (keywordsOf q) ((strictHitsOf sim qv db q).take 3))) with
          | .ok t => t
          | .error _ => summarize summ (mergedOf ((strictHitsOf sim qv db q).take 3)))
        ++ str "\n\nSources:\n" ++ linksOf ((strictHitsOf sim qv db q).take 3) := by
    rw [answer, hne]
    simp only [Bool.false_eq_true, if_false]
  refine ⟨hmain, ?_⟩
  intro hllm
  rcases hllm systemPrompt
    (userPrompt q (contextOf (keywordsOf q) ((strictHitsOf sim qv db q).take 3))) with ⟨e, he⟩
  have hfb : answer sim qv llm summ db q
      = summarize summ (mergedOf ((strictHitsOf sim qv db q).take 3))
        ++ str "\n\nSources:\n" ++ linksOf ((strictHitsOf sim qv db q).take 3) := by
    rw [hmain, he]
  refine ⟨hfb, ?_⟩
  rw [hfb]
  intro habs
  have := congrArg List.length habs
  simp [List.length_append, str] at this

/-- The store row used by the `C6_fallback` witness. -/
def wRow : Row :=
  ⟨str "https://tuppu.fi/a", str "Renewable Energy", 0,
    str "wind power investment grew", []⟩

/-- The question used by the `C6_fallback` witness. -/
def wQ : Str := str "What about wind power?"

/-- Witness for `C6_fallback`: one stored chunk about wind power, a
matching question, a constant similarity of 1 and an always-failing
generation oracle. -/
theorem C6_fallback_witness :
    (strictHitsOf (simConst 1) [] [wRow] wQ ≠ [])
    ∧ answer (simConst 1) [] llmFail summConst [wRow] wQ
      = summarize summConst (mergedOf ((strictHitsOf (simConst 1) [] [wRow] wQ).take 3))
        ++ str "\n\nSources:\n" ++ linksOf ((strictHitsOf (simConst 1) [] [wRow] wQ).take 3) := by
  have hb : (keywordsOf wQ).any (fun kw => includes (lower wRow.content) kw) = true := by
    decide
  have ht : (keywordsOf wQ).any (fun kw => includes (lower wRow.title) kw) = false := by
    decide
  have hscore : scoreOf (simConst 1) [] (keywordsOf wQ) wRow = 1 + 0.03 := by
    rw [scoreOf]
    simp only [ht, hb, Bool.false_eq_true, if_false, if_true, simConst]
  have hsv : searchVectors (simConst 1) [] wQ 10 [wRow] = [⟨wRow, 1 + 0.03⟩] := by
    rw [searchVectors]
    simp only [List.map_cons, List.map_nil, hscore, sortDesc, insertDesc]
    rw [List.filter_cons_of_pos (by norm_num)]
    rfl
  have hstrict : strictHitsOf (simConst 1) [] [wRow] wQ = [⟨wRow, 1 + 0.03⟩] := by
    rw [strictHitsOf]
    simp only [hsv]
    rw [List.filter_cons_of_pos (by norm_num), List.filter_nil,
      List.filter_cons_of_pos (by simpa using hb), List.filter_nil]
  have h : strictHitsOf (simConst 1) [] [wRow] wQ ≠ [] := by
    rw [hstrict]; simp
  have hllm : ∀ s u, ∃ e, llmFail s u = .error e := fun s u => ⟨_, rfl⟩
  exact ⟨h, ((C6_fallback (simConst 1) [] llmFail summConst [wRow] wQ h).2 hllm).1⟩

/-!
## Generation Provider — `generateWithLocalLLM` from `src/models.ts`

```ts
if (!r.ok) {
  const txt = await r.text().catch(() => '');
  throw new Error(`LLM HTTP ${r.status}: ${txt}`);
}
const j = (await r.json()) as ChatCompletionResponse;
const choice = j.choices?.[0];
const fromMessage = choice?.message?.content?.trim();
const fromText = (choice as any)?.text?.trim?.();
const text = (fromMessage || fromText || '').toString();
if (!text) throw new Error('LLM returned empty text');
return text;
```

The HTTP exchange enters as an abstract response value; thrown errors
are the `Except.error` side.  In `Choice`, the outer `Option` of
`message` is "absent or null", the inner one is "`content` absent";
`a || b || ''` falls through on `undefined` and on the empty (blank
after `trim`) string. -/

structure Choice where
  message : Option (Option Str)
  text : Option Str
deriving DecidableEq

structure ChatCompletionResponse where
  choices : Option (List Choice)
deriving DecidableEq

structure HttpResp where
  ok : Bool
  status : Nat
  body : Str
  json : ChatCompletionResponse
deriving DecidableEq

/-- The failure signal class of the Generation Provider. -/
inductive GenFailure where
  | http (status : Nat) (body : Str)
  | emptyResult
deriving DecidableEq

/-- `choice?.message?.content?.trim()`. -/
def fromMessageOf (r : HttpResp) : Option Str :=
  ((((r.json.choices.getD []).head?).bind Choice.message).bind id).map trimChars

/-- `(choice as any)?.text?.trim?.()`. -/
def fromTextOf (r : HttpResp) : Option Str :=
  (((r.json.choices.getD []).head?).bind Choice.text).map trimChars

/-- `x || y` on trimmed optional strings (`undefined` and `''` fall
through). -/
def orBlank (a : Option Str) (b : Str) : Str :=
  match a with
  | some s => if s = [] then b else s
  | none => b

def generateWithLocalLLM (r : HttpResp) : Except GenFailure Str :=
  if r.ok = false then
    .error (.http r.status r.body)
  else
    let text := orBlank (fromMessageOf r) (orBlank (fromTextOf r) [])
    if text = [] then .error .emptyResult else .ok text

/-- "Absent or blank": the field is missing, or trims to the empty
string. -/
def blankOpt (a : Option Str) : Prop :=
  match a with
  | some s => s = []
  | none => True

instance (a : Option Str) : Decidable (blankOpt a) := by
  unfold blankOpt
  cases a with
  | none => exact inferInstanceAs (Decidable True)
  | some s => exact inferInstanceAs (Decidable (s = []))

/-- Claim C7: on a non-success response `generateWithLocalLLM` signals
a failure carrying the backend's status and body; on a success response
it returns the trimmed structured `message` content when that is
non-blank, otherwise the trimmed flat `text` field when that is
non-blank; and it signals the empty-result failure exactly when both
fields are absent or blank. -/
theorem C7_generate (r : HttpResp) :
    (r.ok = false → generateWithLocalLLM r = .error (.http r.status r.body))
    ∧ (r.ok = true →
        (generateWithLocalLLM r = .error .emptyResult
          ↔ blankOpt (fromMessageOf r) ∧ blankOpt (fromTextOf r))
        ∧ (∀ s, fromMessageOf r = some s → s ≠ [] →
            generateWithLocalLLM r = .ok s)
        ∧ (blankOpt (fromMessageOf r) → ∀ t, fromTextOf r = some t → t ≠ [] →
            generateWithLocalLLM r = .ok t)) := by
  constructor
  · intro h
    rw [generateWithLocalLLM, h]
    rfl
  · intro h
    have hok : ¬ (r.ok = false) := by rw [h]; simp
    refine ⟨?_, ?_, ?_⟩
    · rw [generateWithLocalLLM, if_neg hok]
      constructor
      · intro he
        by_cases hb : orBlank (fromMessageOf r) (orBlank (fromTextOf r) []) = []
        · cases hm : fromMessageOf r with
          | none =>
            cases ht : fromTextOf r with
            | none => exact ⟨trivial, trivial⟩
            | some t =>
              rw [hm, ht] at hb
              simp only [orBlank] at hb
              by_cases htn : t = []
              · exact ⟨trivial, htn⟩
              · rw [if_neg htn] at hb; exact absurd hb htn
          | some s =>
            rw [hm] at hb
            simp only [orBlank] at hb
            by_cases hsn : s = []
            · rw [if_pos hsn] at hb
              cases ht : fromTextOf r with
              | none => exact ⟨hsn, trivial⟩
              | some t =>
                rw [ht] at hb
                simp only [orBlank] at hb
                by_cases htn : t = []
                · exact ⟨hsn, htn⟩
                · rw [if_neg htn] at hb; exact absurd hb htn
            · rw [if_neg hsn] at hb; exact absurd hb hsn
        · rw [if_neg hb] at he; exact absurd he (by simp)
      · intro ⟨h1, h2⟩
        have hb : orBlank (fromMessageOf r) (orBlank (fromTextOf r) []) = [] := by
          cases hm : fromMessageOf r with
          | none =>
            cases ht : fromTextOf r with
            | none => rfl
            | some t =>
              have : t = [] := by rw [ht] at h2; exact h2
              simp [orBlank, this]
          | some s =>
            have hs : s = [] := by rw [hm] at h1; exact h1
            cases ht : fromTextOf r with
            | none => simp [orBlank, hs]
            | some t =>
              have : t = [] := by rw [ht] at h2; exact h2
              simp [orBlank, hs, this]
        rw [if_pos hb]
    · intro s hm hs
      rw [generateWithLocalLLM, if_neg hok]
      have : orBlank (fromMessageOf r) (orBlank (fromTextOf r) []) = s := by
        rw [hm]; simp [orBlank, hs]
      rw [this, if_neg hs]
    · intro h1 t ht htn
      rw [generateWithLocalLLM, if_neg hok]
      have : orBlank (fromMessageOf r) (orBlank (fromTextOf r) []) = t := by
        cases hm : fromMessageOf r with
        | none => rw [ht]; simp [orBlank, htn]
        | some s =>
          have hs : s = [] := by rw [hm] at h1; exact h1
          rw [ht]
          simp [orBlank, hs, htn]
      rw [this, if_neg htn]

/-- Witness for `C7_generate` at three concrete responses: an HTTP 500
failure, a success with a structured message, and a success with both
fields blank. -/
theorem C7_generate_witness :
    ((false = false)
      ∧ generateWithLocalLLM ⟨false, 500, str "overloaded", ⟨none⟩⟩
          = .error (.http 500 (str "overloaded")))
    ∧ ((true = true)
        ∧ fromMessageOf ⟨true, 200, [], ⟨some [⟨some (some (str " hi ")), none⟩]⟩⟩
            = some (str "hi")
        ∧ str "hi" ≠ []
        ∧ generateWithLocalLLM ⟨true, 200, [], ⟨some [⟨some (some (str " hi ")), none⟩]⟩⟩
            = .ok (str "hi"))
    ∧ ((true = true)
        ∧ (blankOpt (fromMessageOf ⟨true, 200, [], ⟨some [⟨some (some (str "  ")), some []⟩]⟩⟩)
            ∧ blankOpt (fromTextOf ⟨true, 200, [], ⟨some [⟨some (some (str "  ")), some []⟩]⟩⟩))
        ∧ generateWithLocalLLM ⟨true, 200, [], ⟨some [⟨some (some (str "  ")), some []⟩]⟩⟩
            = .error .emptyResult) := by
  refine ⟨⟨rfl, (C7_generate ⟨false, 500, str "overloaded", ⟨none⟩⟩).1 rfl⟩, ?_, ?_⟩
  · refine ⟨rfl, by decide, by decide, ?_⟩
    exact ((C7_generate _).2 rfl).2.1 (str "hi") (by decide) (by decide)
  · refine ⟨rfl, by decide, ?_⟩
    exact (((C7_generate _).2 rfl).1).mpr (by decide)

/-!
## Indexing Orchestrator — `indexAll` from `src/indexer.ts`

```ts
export async function indexAll(): Promise<void> {
  const docs = await fetchAllPosts();
  const limit = pLimit(3);
  const ins = db.prepare(
    'INSERT OR IGNORE INTO docs(url,title,chunk_index,content,vector) VALUES (?,?,?,?,?)');
  await Promise.all(docs.map((d) => limit(async () => {
    const parts = chunk(d.content);
    if (parts.length === 0) return;
    for (let i = 0; i < parts.length; i++) {
      const exists = db.prepare('SELECT 1 FROM docs WHERE url=? AND chunk_index=?').get(d.url, i);
      if (exists) continue;
      const vec = await embed(`...title\n\n...parts[i]`);
      ins.run(d.url, d.title, i, parts[i], arrToBuf(vec));
    }
  })));
}
```

The embedding call enters as an oracle `embed` returning `Except`
(promise rejection = `error`).  The p-limit(3) pool runs up to three
document tasks at once; `fetchAllPosts` deduplicates documents by URL
and each task touches only rows carrying its own document's URL through
synchronous sqlite statements, so every interleaving yields the same
final table as processing documents in list order; `Promise.all`
rejects exactly when some task rejects, which the error list models
(order of aggregation is list order).  A task that hits an embedding
rejection stops at that chunk: the `for` loop has no try/catch. -/

structure Doc where
  url : Str
  title : Str
  content : Str
deriving DecidableEq

/-- `SELECT 1 FROM docs WHERE url=? AND chunk_index=?` -/
def hasKey (db : List Row) (u : Str) (i : Nat) : Bool :=
  db.any (fun r => decide (r.url = u) && decide (r.chunk_index = i))

/-- `INSERT OR IGNORE` under the unique index `idx_docs_url_chunk` on
`(url, chunk_index)`: a conflicting insert is silently skipped. -/
def insertOrIgnore (db : List Row) (r : Row) : List Row :=
  if hasKey db r.url r.chunk_index then db else db ++ [r]

/-- The per-document chunk loop, over the remaining `parts` with the
current next index `i`. -/
def indexLoop (embed : Str → Except Str (List ℚ)) (d : Doc) :
    List Str → Nat → List Row → List Row × Option Str
  | [], _, db => (db, none)
  | p :: rest, i, db =>
    if hasKey db d.url i then indexLoop embed d rest (i + 1) db
    else
      match embed (d.title ++ str "\n\n" ++ p) with
      | .error e => (db, some e)
      | .ok vec =>
        indexLoop embed d rest (i + 1) (insertOrIgnore db ⟨d.url, d.title, i, p, vec⟩)

/-- One document task. -/
def indexDoc (embed : Str → Except Str (List ℚ)) (db : List Row) (d : Doc) :
    List Row × Option Str :=
  let parts := chunk d.content
  if parts.length = 0 then (db, none)
  else indexLoop embed d parts 0 db

/-- The whole batch: final table and the rejections `Promise.all`
aggregates. -/
def indexAll (embed : Str → Except Str (List ℚ)) (db : List Row) :
    List Doc → List Row × List Str
  | [] => (db, [])
  | d :: rest =>
    let r1 := indexDoc embed db d
    let r2 := indexAll embed r1.1 rest
    (r2.1, r1.2.toList ++ r2.2)

/-- The final table alone. -/
def indexAllDb (embed : Str → Except Str (List ℚ)) (db : List Row)
    (docs : List Doc) : List Row :=
  docs.foldl (fun db d => (indexDoc embed db d).1) db

theorem indexAll_fst (embed : Str → Except Str (List ℚ)) :
    ∀ (docs : List Doc) (db : List Row),
      (indexAll embed db docs).1 = indexAllDb embed db docs := by
  intro docs
  induction docs with
  | nil => intro db; rfl
  | cons d rest ih =>
    intro db
    show (indexAll embed db (d :: rest)).1 = _
    rw [indexAll]
    exact ih (indexDoc embed db d).1

/-- The loop only appends rows, and only rows of its own document. -/
theorem indexLoop_append (embed : Str → Except Str (List ℚ)) (d : Doc) :
    ∀ (parts : List Str) (i : Nat) (db : List Row),
      ∃ t, (indexLoop embed d parts i db).1 = db ++ t
        ∧ ∀ r ∈ t, r.url = d.url := by
  intro parts
  induction parts with
  | nil => intro i db; exact ⟨[], by simp [indexLoop], by simp⟩
  | cons p rest ih =>
    intro i db
    rw [indexLoop]
    by_cases hk : hasKey db d.url i
    · rw [if_pos hk]; exact ih (i + 1) db
    · rw [if_neg hk]
      cases hemb : embed (d.title ++ str "\n\n" ++ p) with
      | error e => exact ⟨[], by simp, by simp⟩
      | ok vec =>
        simp only [insertOrIgnore]
        rw [if_neg hk]
        rcases ih (i + 1) (db ++ [⟨d.url, d.title, i, p, vec⟩]) with ⟨t, ht, hu⟩
        refine ⟨⟨d.url, d.title, i, p, vec⟩ :: t, by simpa using ht, ?_⟩
        intro r hr
        rcases List.mem_cons.mp hr with rfl | hr'
        · rfl
        · exact hu r hr'

theorem indexDoc_append (embed : Str → Except Str (List ℚ)) (d : Doc)
    (db : List Row) :
    ∃ t, (indexDoc embed db d).1 = db ++ t ∧ ∀ r ∈ t, r.url = d.url := by
  rw [indexDoc]
  by_cases h : (chunk d.content).length = 0
  · rw [if_pos h]; exact ⟨[], by simp, by simp⟩
  · rw [if_neg h]; exact indexLoop_append embed d (chunk d.content) 0 db

/-- The batch only appends rows, and only rows whose URL is one of the
batch's documents. -/
theorem indexAllDb_append (embed : Str → Except Str (List ℚ)) :
    ∀ (docs : List Doc) (db : List Row),
      ∃ t, indexAllDb embed db docs = db ++ t
        ∧ ∀ r ∈ t, r.url ∈ docs.map Doc.url := by
  intro docs
  induction docs with
  | nil => intro db; exact ⟨[], by simp [indexAllDb], by simp⟩
  | cons d rest ih =>
    intro db
    rcases indexDoc_append embed d db with ⟨t1, ht1, hu1⟩
    rcases ih (indexDoc embed db d).1 with ⟨t2, ht2, hu2⟩
    refine ⟨t1 ++ t2, ?_, ?_⟩
    · show indexAllDb embed (indexDoc embed db d).1 rest = _
      rw [ht2, ht1, List.append_assoc]
    · intro r hr
      rcases List.mem_append.mp hr with hr' | hr'
      · simp [hu1 r hr']
      · simp only [List.map_cons, List.mem_cons]
        exact Or.inr (hu2 r hr')

theorem hasKey_append (db t : List Row) (u : Str) (i : Nat) :
    hasKey (db ++ t) u i = (hasKey db u i || hasKey t u i) := by
  simp [hasKey, List.any_append]

/-- Rows appended by other documents do not change `hasKey` for this
document's URL. -/
theorem hasKey_append_other (db t : List Row) (u : Str) (i : Nat)
    (h : ∀ r ∈ t, ¬ r.url = u) :
    hasKey (db ++ t) u i = hasKey db u i := by
  rw [hasKey_append]
  have : hasKey t u i = false := by
    apply List.any_eq_false.mpr
    intro r hr
    simp [h r hr]
  rw [this, Bool.or_false]

theorem hasKey_mono (db t : List Row) (u : Str) (i : Nat)
    (h : hasKey db u i = true) : hasKey (db ++ t) u i = true := by
  rw [hasKey_append, h, Bool.true_or]

theorem hasKey_snoc_self (db : List Row) (r : Row) :
    hasKey (db ++ [r]) r.url r.chunk_index = true := by
  rw [hasKey_append]
  have : hasKey [r] r.url r.chunk_index = true := by
    simp [hasKey]
  rw [this, Bool.or_true]

theorem hasKey_eq_true_iff (db : List Row) (u : Str) (i : Nat) :
    hasKey db u i = true ↔ ∃ r ∈ db, r.url = u ∧ r.chunk_index = i := by
  simp [hasKey, List.any_eq_true, Bool.and_eq_true]

/-- Re-running the chunk loop against any table that agrees with the
first run's final table on this document's keys changes nothing and
reports the same outcome. -/
theorem indexLoop_stable (embed : Str → Except Str (List ℚ)) (d : Doc) :
    ∀ (parts : List Str) (i : Nat) (db E : List Row),
      (∀ j, hasKey E d.url j = hasKey (indexLoop embed d parts i db).1 d.url j) →
      indexLoop embed d parts i E = (E, (indexLoop embed d parts i db).2) := by
  intro parts
  induction parts with
  | nil =>
    intro i db E _
    simp [indexLoop]
  | cons p rest ih =>
    intro i db E h
    by_cases hk : hasKey db d.url i
    · have hres : indexLoop embed d (p :: rest) i db
          = indexLoop embed d rest (i + 1) db := by
        rw [indexLoop, if_pos hk]
      rw [hres] at h
      have hkE : hasKey E d.url i = true := by
        rw [h i]
        rcases indexLoop_append embed d rest (i + 1) db with ⟨t, ht, _⟩
        rw [ht]
        exact hasKey_mono db t d.url i hk
      rw [indexLoop, if_pos hkE, hres]
      exact ih (i + 1) db E h
    · cases hemb : embed (d.title ++ str "\n\n" ++ p) with
      | error e =>
        have hres : indexLoop embed d (p :: rest) i db = (db, some e) := by
          rw [indexLoop, if_neg hk, hemb]
        rw [hres] at h
        have hkE : hasKey E d.url i = false := by
          rw [h i]
          simpa using hk
        rw [indexLoop, if_neg (by simp [hkE]), hemb, hres]
      | ok vec =>
        have hres : indexLoop embed d (p :: rest) i db
            = indexLoop embed d rest (i + 1)
                (db ++ [⟨d.url, d.title, i, p, vec⟩]) := by
          rw [indexLoop, if_neg hk, hemb]
          simp only [insertOrIgnore]
          rw [if_neg hk]
        rw [hres] at h
        have hkE : hasKey E d.url i = true := by
          rw [h i]
          rcases indexLoop_append embed d rest (i + 1)
            (db ++ [⟨d.url, d.title, i, p, vec⟩]) with ⟨t, ht, _⟩
          rw [ht]
          exact hasKey_mono (db ++ [⟨d.url, d.title, i, p, vec⟩]) t d.url i
            (hasKey_snoc_self db ⟨d.url, d.title, i, p, vec⟩)
        rw [indexLoop, if_pos hkE, hres]
        exact ih (i + 1) (db ++ [⟨d.url, d.title, i, p, vec⟩]) E h

/-- Re-running one document task against any table agreeing with the
first run's final table on that document's keys changes nothing. -/
theorem indexDoc_stable (embed : Str → Except Str (List ℚ)) (d : Doc)
    (db E : List Row)
    (h : ∀ j, hasKey E d.url j = hasKey (indexDoc embed db d).1 d.url j) :
    indexDoc embed E d = (E, (indexDoc embed db d).2) := by
  by_cases hp : (chunk d.content).length = 0
  · simp [indexDoc, hp]
  · have hd : indexDoc embed db d = indexLoop embed d (chunk d.content) 0 db := by
      rw [indexDoc, if_neg hp]
    rw [hd] at h
    rw [indexDoc, if_neg hp, hd]
    exact indexLoop_stable embed d (chunk d.content) 0 db E h

/-- The uniqueness invariant of the store: no two rows share
`(url, chunk_index)` — the unique index `idx_docs_url_chunk`. -/
def NodupKeys (db : List Row) : Prop :=
  db.Pairwise (fun a b => ¬ (a.url = b.url ∧ a.chunk_index = b.chunk_index))

instance (db : List Row) : Decidable (NodupKeys db) := by
  unfold NodupKeys
  infer_instance

theorem insertOrIgnore_nodup (db : List Row) (r : Row) (h : NodupKeys db) :
    NodupKeys (insertOrIgnore db r) := by
  unfold insertOrIgnore
  by_cases hk : hasKey db r.url r.chunk_index
  · rw [if_pos hk]; exact h
  · rw [if_neg hk]
    unfold NodupKeys
    rw [List.pairwise_append]
    refine ⟨h, by simp, ?_⟩
    intro a ha b hb
    have hb' : b = r := by simpa using hb
    subst hb'
    intro hab
    exact hk ((hasKey_eq_true_iff db _ _).mpr ⟨a, ha, hab.1, hab.2⟩)

theorem indexLoop_nodup (embed : Str → Except Str (List ℚ)) (d : Doc) :
    ∀ (parts : List Str) (i : Nat) (db : List Row), NodupKeys db →
      NodupKeys (indexLoop embed d parts i db).1 := by
  intro parts
  induction parts with
  | nil => intro i db h; simpa [indexLoop] using h
  | cons p rest ih =>
    intro i db h
    rw [indexLoop]
    by_cases hk : hasKey db d.url i
    · rw [if_pos hk]; exact ih (i + 1) db h
    · rw [if_neg hk]
      cases hemb : embed (d.title ++ str "\n\n" ++ p) with
      | error e => exact h
      | ok vec => exact ih (i + 1) _ (insertOrIgnore_nodup db _ h)

theorem indexDoc_nodup (embed : Str → Except Str (List ℚ)) (d : Doc)
    (db : List Row) (h : NodupKeys db) : NodupKeys (indexDoc embed db d).1 := by
  rw [indexDoc]
  by_cases hp : (chunk d.content).length = 0
  · rw [if_pos hp]; exact h
  · rw [if_neg hp]; exact indexLoop_nodup embed d (chunk d.content) 0 db h

theorem indexAllDb_nodup (embed : Str → Except Str (List ℚ)) :
    ∀ (docs : List Doc) (db : List Row), NodupKeys db →
      NodupKeys (indexAllDb embed db docs) := by
  intro docs
  induction docs with
  | nil => intro db h; exact h
  | cons d rest ih =>
    intro db h
    exact ih (indexDoc embed db d).1 (indexDoc_nodup embed d db h)

/-- Re-running a whole batch of URL-distinct documents changes
nothing. -/
theorem indexAllDb_idem (embed : Str → Except Str (List ℚ)) :
    ∀ (docs : List Doc) (db : List Row), (docs.map Doc.url).Nodup →
      indexAllDb embed (indexAllDb embed db docs) docs
        = indexAllDb embed db docs := by
  intro docs
  induction docs with
  | nil => intro db _; rfl
  | cons d rest ih =>
    intro db h
    rw [List.map_cons, List.nodup_cons] at h
    rcases h with ⟨hd, hrest⟩
    have hstab : indexDoc embed (indexAllDb embed (indexDoc embed db d).1 rest) d
        = (indexAllDb embed (indexDoc embed db d).1 rest, (indexDoc embed db d).2) := by
      apply indexDoc_stable
      intro j
      rcases indexAllDb_append embed rest (indexDoc embed db d).1 with ⟨t, ht, hu⟩
      rw [ht, hasKey_append_other]
      intro r hr hru
      exact hd (by rw [← hru]; exact hu r hr)
    show indexAllDb embed
        (indexDoc embed (indexAllDb embed (indexDoc embed db d).1 rest) d).1 rest = _
    rw [hstab]
    exact ih (indexDoc embed db d).1 hrest

/-- Claim C3: inserting a chunk record whose `(document_key, ordinal)`
pair already exists is a silent no-op — the table, hence its row count
and every existing row's title, text and vector, is unchanged; the
store's uniqueness invariant is preserved by any indexing batch; and
re-indexing the same batch of (URL-deduplicated) documents a second
time changes nothing at all; moreover indexing only ever appends rows,
so existing rows are never modified. -/
theorem C3_upsert_idempotent (embed : Str → Except Str (List ℚ))
    (db : List Row) (r : Row) (docs : List Doc) :
    (hasKey db r.url r.chunk_index = true → insertOrIgnore db r = db)
    ∧ (NodupKeys db → NodupKeys (indexAllDb embed db docs))
    ∧ ((docs.map Doc.url).Nodup →
        indexAllDb embed (indexAllDb embed db docs) docs
          = indexAllDb embed db docs)
    ∧ (∃ t, indexAllDb embed db docs = db ++ t) := by
  refine ⟨?_, indexAllDb_nodup embed docs db, indexAllDb_idem embed docs db, ?_⟩
  · intro h
    unfold insertOrIgnore
    rw [if_pos h]
  · rcases indexAllDb_append embed docs db with ⟨t, ht, _⟩
    exact ⟨t, ht⟩

set_option maxRecDepth 8000 in
/-- Witness for `C3_upsert_idempotent`: a one-row store re-receiving
its own row, and a one-document batch indexed twice (with an embedding
oracle returning the empty vector). -/
theorem C3_upsert_idempotent_witness :
    (hasKey [⟨str "u", str "T", 0, str "hello", []⟩] (str "u") 0 = true
      ∧ NodupKeys [⟨str "u", str "T", 0, str "hello", []⟩]
      ∧ (([⟨str "u", str "T", str "hello"⟩] : List Doc).map Doc.url).Nodup)
    ∧ (insertOrIgnore [⟨str "u", str "T", 0, str "hello", []⟩]
        ⟨str "u", str "T", 0, str "hello", []⟩ = [⟨str "u", str "T", 0, str "hello", []⟩]
      ∧ NodupKeys (indexAllDb (fun _ => .ok []) [⟨str "u", str "T", 0, str "hello", []⟩]
          [⟨str "u", str "T", str "hello"⟩])
      ∧ indexAllDb (fun _ => .ok [])
          (indexAllDb (fun _ => .ok []) [⟨str "u", str "T", 0, str "hello", []⟩]
            [⟨str "u", str "T", str "hello"⟩])
          [⟨str "u", str "T", str "hello"⟩]
        = indexAllDb (fun _ => .ok []) [⟨str "u", str "T", 0, str "hello", []⟩]
            [⟨str "u", str "T", str "hello"⟩]) := by
  have hc := C3_upsert_idempotent (fun _ => .ok [])
    [⟨str "u", str "T", 0, str "hello", []⟩]
    ⟨str "u", str "T", 0, str "hello", []⟩
    [⟨str "u", str "T", str "hello"⟩]
  exact ⟨⟨by decide, by decide, by decide⟩,
    hc.1 (by decide), hc.2.1 (by decide), hc.2.2.1 (by decide)⟩

/-!
## Claim C1 — error containment in `indexAll`
-/

/-- An embedding oracle that rejects long inputs (inputs of length
≥ 100) and embeds short ones. -/
def embedLenFail : Str → Except Str (List ℚ) :=
  fun s => if 100 ≤ s.length then .error (str "embed failed") else .ok []

/-- A document long enough to produce two chunks (721 characters:
chunk 0 is the 721-character window, chunk 1 the final character). -/
def bigDoc : Doc := ⟨str "u", str "T", List.replicate 721 'a'⟩

set_option maxRecDepth 8000 in
/-- Claim C1, counterexample.  One fetched document yields two chunks;
embedding chunk 0 fails while chunk 1 would embed fine.  The claim
predicts chunk 0 is skipped, chunk 1 is stored, and no batch-level
failure is reported (the source fetch succeeded).  The code instead
stops the document at the failed chunk — chunk 1 is never stored, the
table stays empty — and `indexAll` rejects, reporting a batch-level
failure. -/
theorem C1_counterexample :
    (chunk bigDoc.content).length = 2
    ∧ embedLenFail (bigDoc.title ++ str "\n\n" ++ (chunk bigDoc.content).getD 1 [])
        = .ok []
    ∧ (indexAll embedLenFail [] [bigDoc]).1 = []
    ∧ (indexAll embedLenFail [] [bigDoc]).2 ≠ [] := by
  refine ⟨rfl, rfl, rfl, by decide⟩

/-- Claim C1, amended: a failure embedding one chunk rejects that
document's task at that chunk (its remaining chunks are not processed)
and surfaces as a batch-level failure of `indexAll` even though the
source fetch succeeded; the other documents' tasks still run, from the
failed document's partial state. -/
theorem C1_failure_propagates (embed : Str → Except Str (List ℚ))
    (db : List Row) (d : Doc) (rest : List Doc)
    (h : (indexDoc embed db d).2.isSome = true) :
    (indexAll embed db (d :: rest)).2 ≠ []
    ∧ (indexAll embed db (d :: rest)).1
        = indexAllDb embed (indexDoc embed db d).1 rest := by
  constructor
  · rw [indexAll]
    cases he : (indexDoc embed db d).2 with
    | none => simp [he] at h
    | some e => simp
  · rw [indexAll]
    exact indexAll_fst embed rest (indexDoc embed db d).1

set_option maxRecDepth 8000 in
/-- Witness for `C1_failure_propagates`: the two-chunk document whose
first chunk fails to embed, followed by a second document. -/
theorem C1_failure_propagates_witness :
    ((indexDoc embedLenFail [] bigDoc).2.isSome = true)
    ∧ ((indexAll embedLenFail [] [bigDoc, ⟨str "v", str "S", str "ok"⟩]).2 ≠ []
      ∧ (indexAll embedLenFail [] [bigDoc, ⟨str "v", str "S", str "ok"⟩]).1
          = indexAllDb embedLenFail (indexDoc embedLenFail [] bigDoc).1
              [⟨str "v", str "S", str "ok"⟩]) :=
  ⟨by decide,
    C1_failure_propagates embedLenFail [] bigDoc [⟨str "v", str "S", str "ok"⟩] (by decide)⟩

/-!
## Schema migration — `initDatabase` from `src/database.ts`

```ts
if (!tableExists('docs')) { db.exec(`CREATE TABLE docs (...chunk_index...)`); }
if (!tableHasColumn('docs', 'chunk_index')) {
  db.exec(`ALTER TABLE docs RENAME TO docs_old;`);
  db.exec(`CREATE TABLE docs (...chunk_index...);`);
  const oldRows = db.prepare(`SELECT url, title, content, vector FROM docs_old`).all();
  const ins = db.prepare(`INSERT INTO docs (url,title,chunk_index,content,vector) VALUES (?,?,?,?,?)`);
  const tx = db.transaction(() => { for (const r of oldRows) ins.run(r.url, r.title, 0, r.content, r.vector); });
  tx();
  db.exec(`DROP TABLE docs_old;`);
}
db.exec(`CREATE INDEX ...; CREATE UNIQUE INDEX ...;`);
```

The store is the `docs` table (absent, pre-ordinal shape, or current
shape) plus the possible `docs_old` table.  The rename/copy/drop
sequence nets to: new-shape `docs` holding each old row with
`chunk_index = 0`, `docs_old` gone.  Step 3 (index creation) changes no
rows. -/

structure OldRow where
  url : Str
  title : Str
  content : Str
  vector : List ℚ
deriving DecidableEq

inductive DocsTable where
  | oldSchema (rows : List OldRow)
  | newSchema (rows : List Row)
deriving DecidableEq

structure Store where
  docs : Option DocsTable
  docsOld : Option (List OldRow)
deriving DecidableEq

/-- `ins.run(r.url, r.title, 0, r.content, r.vector)`. -/
def migrateRow (r : OldRow) : Row := ⟨r.url, r.title, 0, r.content, r.vector⟩

def initDatabase (s : Store) : Store :=
  let docs1 := match s.docs with
    | none => DocsTable.newSchema []
    | some t => t
  match docs1 with
  | .oldSchema rows => ⟨some (.newSchema (rows.map migrateRow)), none⟩
  | .newSchema rows => ⟨some (.newSchema rows), s.docsOld⟩

theorem migrateRow_injective : Function.Injective migrateRow := by
  intro a b h
  cases a; cases b
  simpa [migrateRow, Row.mk.injEq, OldRow.mk.injEq] using h

/-- Claim C8: initializing a store in the pre-ordinal shape migrates
each old row `(url, title, content, vector)` to exactly one row
`(document_key = url, title, ordinal = 0, text = content, vector)` in
the current shape — same row count, positionally identical content,
every old row preserved exactly once (multiplicities included) — and
removes the prior table. -/
theorem C8_migration (s : Store) (rows : List OldRow)
    (h : s.docs = some (.oldSchema rows)) :
    initDatabase s = ⟨some (.newSchema (rows.map migrateRow)), none⟩
    ∧ (rows.map migrateRow).length = rows.length
    ∧ (∀ i (hi : i < rows.length),
        (rows.map migrateRow).get ⟨i, by simpa using hi⟩
          = ⟨(rows.get ⟨i, hi⟩).url, (rows.get ⟨i, hi⟩).title, 0,
              (rows.get ⟨i, hi⟩).content, (rows.get ⟨i, hi⟩).vector⟩)
    ∧ (∀ orow : OldRow,
        (rows.map migrateRow).count (migrateRow orow) = rows.count orow) := by
  refine ⟨?_, List.length_map rows migrateRow, ?_, ?_⟩
  · rw [initDatabase, h]
  · intro i hi
    simp [List.get_eq_getElem, List.getElem_map, migrateRow]
  · intro orow
    exact List.count_map_of_injective rows migrateRow migrateRow_injective orow

/-- Witness for `C8_migration` at a one-row pre-ordinal store. -/
theorem C8_migration_witness :
    ((⟨some (.oldSchema [⟨str "a", str "T", str "c", []⟩]), none⟩ : Store).docs
        = some (.oldSchema [⟨str "a", str "T", str "c", []⟩]))
    ∧ (initDatabase ⟨some (.oldSchema [⟨str "a", str "T", str "c", []⟩]), none⟩
        = ⟨some (.newSchema ([⟨str "a", str "T", str "c", []⟩].map migrateRow)), none⟩
      ∧ (([⟨str "a", str "T", str "c", []⟩] : List OldRow).map migrateRow).length
          = ([⟨str "a", str "T", str "c", []⟩] : List OldRow).length
      ∧ (∀ orow : OldRow,
          (([⟨str "a", str "T", str "c", []⟩] : List OldRow).map migrateRow).count
              (migrateRow orow)
            = ([⟨str "a", str "T", str "c", []⟩] : List OldRow).count orow)) := by
  have hc := C8_migration ⟨some (.oldSchema [⟨str "a", str "T", str "c", []⟩]), none⟩
    [⟨str "a", str "T", str "c", []⟩] rfl
  exact ⟨rfl, hc.1, hc.2.1, hc.2.2.2⟩

/-!
## Single-flight lazy initialization — `getEmbedder` from `src/models.ts`

```ts
let embedderPromise: Promise<any> | null = null;
async function getEmbedder() {
  if (!embedderPromise) {
    embedderPromise = pipeline('feature-extraction', 'Xenova/all-MiniLM-L6-v2');
  }
  return embedderPromise;
}
```

The function body runs synchronously up to its return (there is no
`await` between the null check and the assignment), so on the
single-threaded event loop each call is atomic and any set of
concurrent callers is some serialization of atomic calls.  Promises
are identified by creation order (`next` is the next fresh identity);
a call either starts initialization (`didInit = true`) or returns the
cached promise.  The cached promise — and with it the one eventual
outcome, fulfilment or rejection — is never reset, even on failure.
`getSummarizer` is the identical pattern. -/

/-- One atomic `getEmbedder()` call: `(new state, (returned promise,
did this call start an initialization))`. -/
def getEmbedderCall (next : Nat) (s : Option Nat) : Option Nat × Nat × Bool :=
  match s with
  | none => (some next, next, true)
  | some p => (some p, p, false)

/-- A serialization of `n` calls. -/
def runCalls : Nat → Nat → Option Nat → Option Nat × List (Nat × Bool)
  | 0, _, s => (s, [])
  | n + 1, next, s =>
    let c := getEmbedderCall next s
    let rest := runCalls n (next + 1) c.1
    (rest.1, c.2 :: rest.2)

theorem runCalls_cached (p : Nat) :
    ∀ n next, runCalls n next (some p) = (some p, List.replicate n (p, false)) := by
  intro n
  induction n with
  | zero => intro next; rfl
  | succ n ih =>
    intro next
    simp only [runCalls, getEmbedderCall]
    rw [ih (next + 1), List.replicate_succ]

/-- Claim C9: any number `n ≥ 1` of (serialized) calls starting from
the uninitialized state converge on the one promise created by the
first call: every call returns promise 0, exactly one call (the first)
triggers initialization, and the cached state is that same promise —
so all callers await the same single initialization and observe its
one outcome, and no second initialization is ever triggered. -/
theorem C9_single_flight (n : Nat) (h : 0 < n) :
    (runCalls n 0 none).1 = some 0
    ∧ (runCalls n 0 none).2.length = n
    ∧ (∀ c ∈ (runCalls n 0 none).2, c.1 = 0)
    ∧ ((runCalls n 0 none).2.filter (fun c => c.2)).length = 1 := by
  cases n with
  | zero => exact absurd h (by simp)
  | succ m =>
    have hrun : runCalls (m + 1) 0 none
        = (some 0, (0, true) :: List.replicate m (0, false)) := by
      simp only [runCalls, getEmbedderCall]
      rw [runCalls_cached 0 m (0 + 1)]
    rw [hrun]
    refine ⟨rfl, by simp, ?_, ?_⟩
    · intro c hc
      rcases List.mem_cons.mp hc with rfl | hc'
      · rfl
      · exact congrArg Prod.fst (List.eq_of_mem_replicate hc')
    · have : (List.replicate m ((0 : Nat), false)).filter (fun c => c.2) = [] := by
        apply List.filter_eq_nil_iff.mpr
        intro c hc
        rw [List.eq_of_mem_replicate hc]
        simp
      simp [List.filter, this]

/-- Witness for `C9_single_flight` at `n = 3`. -/
theorem C9_single_flight_witness :
    0 < 3
    ∧ ((runCalls 3 0 none).1 = some 0
      ∧ (runCalls 3 0 none).2.length = 3
      ∧ (∀ c ∈ (runCalls 3 0 none).2, c.1 = 0)
      ∧ ((runCalls 3 0 none).2.filter (fun c => c.2)).length = 1) :=
  ⟨by decide, C9_single_flight 3 (by decide)⟩

end Tuppu
